import Mathlib

/-!
# NeuronIP Python SDK — verification of the gateway-client specification

Shallow embedding of `src/sdk/python/neuronip/client.py` (the
`NeuronIPClient` wrapper) and of `src/scripts/create-test-api-key.py`.
Python strings are modelled as `List Char`; Python dicts as association
lists with Python's insertion/overwrite semantics (`dictInsert`,
`dictUpdate`); JSON payloads as the inductive `Json` (numbers restricted
to integers, which is the fragment the SDK exchanges).

The external collaborators that the client calls are modelled from their
documented behaviour:

* the `json` codec (`encode` / `decode`) models Python's `json.dumps` /
  `json.loads` on the integer-number fragment, with a compact encoder
  (escaping of the quote and backslash characters);
* `requests.Response.raise_for_status` raises exactly for status codes
  `s` with `400 ≤ s < 600`;
* a single `Session.request` call is modelled by consuming exactly one
  response from a response stream (`requestDispatch`), so that
  "no retry" is the statement that the rest of the stream is untouched;
* the hash functions of the provisioning script (`hashlib.sha256`,
  `bcrypt.hashpw`) are modelled symbolically by the free constructors of
  `Digest`, which makes the staging structure of the stored digest a
  provable (and refutable) statement.
-/

/-- A JSON value (the fragment exchanged by the SDK: objects, arrays,
strings, integer numbers, booleans, null). Object members are kept in
insertion order, as Python dicts do. -/
inductive Json where
  | null : Json
  | bool : Bool → Json
  | num : Int → Json
  | str : List Char → Json
  | arr : List Json → Json
  | obj : List (List Char × Json) → Json

/-- Decimal digit character for a value below ten. -/
def digitChar : Nat → Char
  | 0 => '0'
  | 1 => '1'
  | 2 => '2'
  | 3 => '3'
  | 4 => '4'
  | 5 => '5'
  | 6 => '6'
  | 7 => '7'
  | 8 => '8'
  | _ => '9'

/-- Accumulating decimal printer for naturals (most significant digit first). -/
def natDigitsAux (n : Nat) (acc : List Char) : List Char :=
  if h : n = 0 then acc
  else natDigitsAux (n / 10) (digitChar (n % 10) :: acc)
termination_by n
decreasing_by exact Nat.div_lt_self (Nat.pos_of_ne_zero h) (by decide)

/-- Decimal representation of a natural number. -/
def natDigits (n : Nat) : List Char :=
  if n = 0 then ['0'] else natDigitsAux n []

/-- Decimal representation of an integer, as `json.dumps` prints it. -/
def intChars : Int → List Char
  | Int.ofNat n => natDigits n
  | Int.negSucc m => '-' :: natDigits (m + 1)

/-- String-body encoder: escapes the quote and the backslash. -/
def encStrBody : List Char → List Char
  | [] => []
  | c :: s => (if c = '\x22' ∨ c = '\\' then ['\\', c] else [c]) ++ encStrBody s

mutual

/-- Models the serialization a Python peer applies with `json.dumps`
(compact separators) on the integer fragment. -/
def encode : Json → List Char
  | Json.null => ['n', 'u', 'l', 'l']
  | Json.bool true => ['t', 'r', 'u', 'e']
  | Json.bool false => ['f', 'a', 'l', 's', 'e']
  | Json.num n => intChars n
  | Json.str s => '\x22' :: (encStrBody s ++ ['\x22'])
  | Json.arr [] => ['[', ']']
  | Json.arr (v :: vs) => '[' :: (encodeItems v vs ++ [']'])
  | Json.obj [] => ['\x7b', '\x7d']
  | Json.obj (kv :: kvs) => '\x7b' :: (encodeFields kv kvs ++ ['\x7d'])
termination_by j => sizeOf j

/-- Comma-separated encoding of a nonempty list of array items. -/
def encodeItems : Json → List Json → List Char
  | v, [] => encode v
  | v, w :: ws => encode v ++ ',' :: encodeItems w ws
termination_by v vs => 1 + sizeOf v + sizeOf vs

/-- Comma-separated encoding of a nonempty list of object members. -/
def encodeFields : (List Char × Json) → List (List Char × Json) → List Char
  | (k, v), [] => '\x22' :: (encStrBody k ++ '\x22' :: ':' :: encode v)
  | (k, v), kv2 :: kvs =>
      ('\x22' :: (encStrBody k ++ '\x22' :: ':' :: encode v)) ++ ',' :: encodeFields kv2 kvs
termination_by kv kvs => 1 + sizeOf kv + sizeOf kvs
decreasing_by all_goals (simp_wf <;> omega)

end

/-- Whether a character is a decimal digit (by code point). -/
def isDig (c : Char) : Bool := decide (48 ≤ c.toNat ∧ c.toNat ≤ 57)

/-- Splits off the longest digit run at the head of the input. -/
def spanDigits : List Char → List Char × List Char
  | [] => ([], [])
  | c :: r =>
      if isDig c then
        let p := spanDigits r
        (c :: p.1, p.2)
      else ([], c :: r)

/-- Numeric value of a digit run (most significant digit first). -/
def digitsToNat (ds : List Char) : Nat :=
  ds.foldl (fun a c => a * 10 + (c.toNat - 48)) 0

/-- String-body parser: reads up to an unescaped closing quote, undoing
the two escapes the encoder emits. The flag records that the previous
character was an unprocessed backslash. -/
def parseStrAuxF : Bool → List Char → Option (List Char × List Char)
  | _, [] => none
  | true, e :: r =>
      if e = '\x22' ∨ e = '\\' then
        match parseStrAuxF false r with
        | some p => some (e :: p.1, p.2)
        | none => none
      else none
  | false, c :: r =>
      if c = '\x22' then some ([], r)
      else if c = '\\' then parseStrAuxF true r
      else
        match parseStrAuxF false r with
        | some p => some (c :: p.1, p.2)
        | none => none

/-- String-body parser after an opening quote. -/
def parseStrAux : List Char → Option (List Char × List Char) :=
  parseStrAuxF false

/-- Parser mode: a single value, the items of an array after the opening
bracket, or the members of an object after the opening brace. -/
inductive PMode where
  | val
  | items
  | fields

/-- Parser result for the three modes. -/
inductive PRes where
  | v (j : Json)
  | items (l : List Json)
  | fields (l : List (List Char × Json))

/-- True when the input does not start with a digit (delimits a number). -/
def noDigitHead : List Char → Bool
  | [] => true
  | c :: _ => !(isDig c)

/-- Fuel-indexed recursive-descent JSON parser; together with `decode`
this models `json.loads` on the fragment of the encoder. -/
def parseP : Nat → PMode → List Char → Option (PRes × List Char)
  | 0, _, _ => none
  | fuel + 1, PMode.val, input =>
      match input with
      | [] => none
      | c :: cs =>
          if isDig c then
            let p := spanDigits (c :: cs)
            some (PRes.v (Json.num (digitsToNat p.1)), p.2)
          else if c = '-' then
            match spanDigits cs with
            | ([], _) => none
            | (d :: ds, r) => some (PRes.v (Json.num (-(digitsToNat (d :: ds) : Int))), r)
          else if c = 'n' then
            match cs with
            | 'u' :: 'l' :: 'l' :: r => some (PRes.v Json.null, r)
            | _ => none
          else if c = 't' then
            match cs with
            | 'r' :: 'u' :: 'e' :: r => some (PRes.v (Json.bool true), r)
            | _ => none
          else if c = 'f' then
            match cs with
            | 'a' :: 'l' :: 's' :: 'e' :: r => some (PRes.v (Json.bool false), r)
            | _ => none
          else if c = '\x22' then
            match parseStrAux cs with
            | some p => some (PRes.v (Json.str p.1), p.2)
            | none => none
          else if c = '[' then
            if cs.head? = some ']' then some (PRes.v (Json.arr []), cs.tail)
            else
              match parseP fuel PMode.items cs with
              | some (PRes.items l, r) => some (PRes.v (Json.arr l), r)
              | _ => none
          else if c = '\x7b' then
            if cs.head? = some '\x7d' then some (PRes.v (Json.obj []), cs.tail)
            else
              match parseP fuel PMode.fields cs with
              | some (PRes.fields l, r) => some (PRes.v (Json.obj l), r)
              | _ => none
          else none
  | fuel + 1, PMode.items, input =>
      match parseP fuel PMode.val input with
      | some (PRes.v j, r) =>
          match r with
          | ',' :: r2 =>
              match parseP fuel PMode.items r2 with
              | some (PRes.items l, r3) => some (PRes.items (j :: l), r3)
              | _ => none
          | ']' :: r2 => some (PRes.items [j], r2)
          | _ => none
      | _ => none
  | fuel + 1, PMode.fields, input =>
      match input with
      | '\x22' :: cs =>
          match parseStrAux cs with
          | some (k, r) =>
              match r with
              | ':' :: r2 =>
                  match parseP fuel PMode.val r2 with
                  | some (PRes.v j, r3) =>
                      match r3 with
                      | ',' :: r4 =>
                          match parseP fuel PMode.fields r4 with
                          | some (PRes.fields l, r5) => some (PRes.fields ((k, j) :: l), r5)
                          | _ => none
                      | '\x7d' :: r4 => some (PRes.fields [(k, j)], r4)
                      | _ => none
                  | _ => none
              | _ => none
          | none => none
      | _ => none

/-- Models `json.loads`: a parse succeeds only when it consumes the whole
body. The fuel bound is sufficient for every encoder output. -/
def decode (s : List Char) : Option Json :=
  match parseP (2 * s.length + 1) PMode.val s with
  | some (PRes.v j, []) => some j
  | _ => none

/-! ## Python dicts as insertion-ordered association lists -/

/-- Models `d[key] = val` on a Python dict: replace in place when the key
is present, append otherwise. -/
def dictInsert {α β : Type} [DecidableEq α] : List (α × β) → α → β → List (α × β)
  | [], key, val => [(key, val)]
  | (k, v) :: rest, key, val =>
      if k = key then (key, val) :: rest else (k, v) :: dictInsert rest key val

/-- Models `d.update(e)` on Python dicts: entries of `e` are inserted in
order, overwriting existing keys. -/
def dictUpdate {α β : Type} [DecidableEq α] (d e : List (α × β)) : List (α × β) :=
  e.foldl (fun acc kv => dictInsert acc kv.1 kv.2) d

/-- Models `d.get(key)` on a Python dict. -/
def dictGet {α β : Type} [DecidableEq α] : List (α × β) → α → Option β
  | [], _ => none
  | (k, v) :: rest, key => if k = key then some v else dictGet rest key

/-! ## The gateway client (`NeuronIPClient`) -/

/-- Models Python's `str.rstrip` with the slash character: drops every
trailing slash. -/
def rstripSlashes (s : List Char) : List Char :=
  (s.reverse.dropWhile (fun c => c = '/')).reverse

/-- Immutable per-client configuration, set in `NeuronIPClient.__init__`:
the raw `base_url` argument and the optional `api_key`. -/
structure ClientConfig where
  base_url : List Char
  api_key : Option (List Char)

/-- Header name `Authorization`. -/
def authorizationKey : List Char := "Authorization".data

/-- Header name `Content-Type`. -/
def contentTypeKey : List Char := "Content-Type".data

/-- Header value `application/json`. -/
def appJsonValue : List Char := "application/json".data

/-- Header value `Bearer <api_key>`. -/
def bearerValue (k : List Char) : List Char := "Bearer ".data ++ k

/-- Models the `session.headers.update` call in `__init__`: the session
headers carry `Authorization` and `Content-Type` exactly when `api_key`
is truthy (present and non-empty), and nothing otherwise. -/
def sessionHeaders : Option (List Char) → List (List Char × List Char)
  | none => []
  | some [] => []
  | some (c :: cs) =>
      [(authorizationKey, bearerValue (c :: cs)), (contentTypeKey, appJsonValue)]

/-- Models the URL built in `_request`: `__init__` stores
`base_url.rstrip('/')` and `_request` concatenates the endpoint. -/
def requestUrl (cfg : ClientConfig) (endpoint : List Char) : List Char :=
  rstripSlashes cfg.base_url ++ endpoint

/-- The outbound request a resource method hands to `session.request`:
method, target URL, session headers, query parameters and JSON body. -/
structure Request where
  method : List Char
  url : List Char
  headers : List (List Char × List Char)
  params : List (List Char × Json)
  body : Option Json

/-- Request construction shared by `_request`: URL from the stripped base
plus endpoint, headers always the session headers (no per-request
override exists in the source). -/
def mkRequest (cfg : ClientConfig) (method endpoint : List Char)
    (params : List (List Char × Json)) (body : Option Json) : Request :=
  ⟨method, requestUrl cfg endpoint, sessionHeaders cfg.api_key, params, body⟩

/-- JSON/query key `query`. -/
def queryKey : List Char := "query".data

/-- JSON key `schema_id`. -/
def schemaIdKey : List Char := "schema_id".data

/-- JSON/query key `limit`. -/
def limitKey : List Char := "limit".data

/-- JSON/query key `data_source_id`. -/
def dataSourceIdKey : List Char := "data_source_id".data

/-- JSON key `job_type`. -/
def jobTypeKey : List Char := "job_type".data

/-- JSON key `config`. -/
def configKey : List Char := "config".data

/-- Models `NeuronIPClient.health_check`. -/
def health_check (cfg : ClientConfig) : Request :=
  mkRequest cfg "GET".data "/health".data [] none

/-- Models `NeuronIPClient.semantic_search`. -/
def semantic_search (cfg : ClientConfig) (query : List Char) (limit : Int) : Request :=
  mkRequest cfg "POST".data "/semantic/search".data []
    (some (Json.obj (dictInsert (dictInsert [] queryKey (Json.str query)) limitKey (Json.num limit))))

/-- Models `NeuronIPClient.warehouse_query`: the payload has the `query`
key, and the `schema_id` key exactly when the argument is truthy. -/
def warehouse_query (cfg : ClientConfig) (query : List Char)
    (schema_id : Option (List Char)) : Request :=
  let payload := dictInsert [] queryKey (Json.str query)
  let payload :=
    match schema_id with
    | none => payload
    | some [] => payload
    | some (c :: cs) => dictInsert payload schemaIdKey (Json.str (c :: cs))
  mkRequest cfg "POST".data "/warehouse/query".data [] (some (Json.obj payload))

/-- Models `NeuronIPClient.create_ingestion_job`. -/
def create_ingestion_job (cfg : ClientConfig) (data_source_id job_type : List Char)
    (config : Json) : Request :=
  mkRequest cfg "POST".data "/ingestion/jobs".data []
    (some (Json.obj (dictInsert (dictInsert (dictInsert [] dataSourceIdKey
      (Json.str data_source_id)) jobTypeKey (Json.str job_type)) configKey config)))

/-- Models `NeuronIPClient.list_ingestion_jobs`: query parameters have
`limit`, and `data_source_id` exactly when the argument is truthy. -/
def list_ingestion_jobs (cfg : ClientConfig) (data_source_id : Option (List Char))
    (limit : Int) : Request :=
  let params := dictInsert [] limitKey (Json.num limit)
  let params :=
    match data_source_id with
    | none => params
    | some [] => params
    | some (c :: cs) => dictInsert params dataSourceIdKey (Json.str (c :: cs))
  mkRequest cfg "GET".data "/ingestion/jobs".data params none

/-- Models calling `list_ingestion_jobs` with the `limit` argument
omitted: the Python default is `limit=100`. -/
def list_ingestion_jobs_default (cfg : ClientConfig)
    (data_source_id : Option (List Char)) : Request :=
  list_ingestion_jobs cfg data_source_id 100

/-- Models `NeuronIPClient.get_metric`. -/
def get_metric (cfg : ClientConfig) (metric_id : List Char) : Request :=
  mkRequest cfg "GET".data ( "/metrics/".data ++ metric_id) [] none

/-- Models `NeuronIPClient.create_metric`. -/
def create_metric (cfg : ClientConfig) (metric : Json) : Request :=
  mkRequest cfg "POST".data "/metrics".data [] (some metric)

/-- Models `NeuronIPClient.get_audit_logs`: the `limit` parameter is set
first, then a truthy `filters` dict is merged over it with
`params.update(filters)`. -/
def get_audit_logs (cfg : ClientConfig) (filters : Option (List (List Char × Json)))
    (limit : Int) : Request :=
  let params := dictInsert [] limitKey (Json.num limit)
  let params :=
    match filters with
    | none => params
    | some [] => params
    | some (kv :: kvs) => dictUpdate params (kv :: kvs)
  mkRequest cfg "GET".data "/audit/events".data params none

/-- One invocation of a resource method, with its arguments: the full
surface of `NeuronIPClient`. -/
inductive ApiOp where
  | health_check : ApiOp
  | semantic_search (query : List Char) (limit : Int) : ApiOp
  | warehouse_query (query : List Char) (schema_id : Option (List Char)) : ApiOp
  | create_ingestion_job (data_source_id job_type : List Char) (config : Json) : ApiOp
  | list_ingestion_jobs (data_source_id : Option (List Char)) (limit : Int) : ApiOp
  | get_metric (metric_id : List Char) : ApiOp
  | create_metric (metric : Json) : ApiOp
  | get_audit_logs (filters : Option (List (List Char × Json))) (limit : Int) : ApiOp

/-- The request a given resource-method invocation sends. -/
def runOp (cfg : ClientConfig) : ApiOp → Request
  | ApiOp.health_check => health_check cfg
  | ApiOp.semantic_search q n => semantic_search cfg q n
  | ApiOp.warehouse_query q s => warehouse_query cfg q s
  | ApiOp.create_ingestion_job d j c => create_ingestion_job cfg d j c
  | ApiOp.list_ingestion_jobs d n => list_ingestion_jobs cfg d n
  | ApiOp.get_metric m => get_metric cfg m
  | ApiOp.create_metric m => create_metric cfg m
  | ApiOp.get_audit_logs f n => get_audit_logs cfg f n

/-- Looks up a key in a request's JSON object body (none when the body is
absent or not an object). -/
def bodyLookup (r : Request) (k : List Char) : Option Json :=
  match r.body with
  | some (Json.obj l) => dictGet l k
  | _ => none

/-! ## Response handling in `_request` -/

/-- A transport-level response: status code and raw body. -/
structure HttpResponse where
  status : Nat
  body : List Char

/-- The error taxonomy of the spec: transport failure, HTTP failure
status (with status and raw body), or an undecodable success body. -/
inductive ApiError where
  | transportError : ApiError
  | httpStatusError (status : Nat) (body : List Char) : ApiError
  | decodeError (body : List Char) : ApiError

/-- Models the response side of `_request`: `response.raise_for_status()`
raises `HTTPError` exactly for `400 ≤ status < 600` (the documented
behaviour of `requests`), then `response.json()` either returns the
decoded body or raises the decode error. -/
def handleResponse (r : HttpResponse) : Except ApiError Json :=
  if 400 ≤ r.status ∧ r.status < 600 then
    Except.error (ApiError.httpStatusError r.status r.body)
  else
    match decode r.body with
    | some j => Except.ok j
    | none => Except.error (ApiError.decodeError r.body)

/-- Models one `_request` call against a stream of server responses: the
single `session.request` call consumes exactly the first response (no
retry), and an empty stream is a transport failure. The unconsumed rest
of the stream is returned so that "exactly one dispatch" is visible. -/
def requestDispatch (responses : List HttpResponse) :
    Except ApiError Json × List HttpResponse :=
  match responses with
  | [] => (Except.error ApiError.transportError, [])
  | r :: rest => (handleResponse r, rest)

/-! ## The credential-provisioning script (`create-test-api-key.py`) -/

/-- Symbolic digest values: the raw key, the hex digest of `hashlib.sha256`
over a value, and `bcrypt.hashpw` of a value with a salt. The free
constructors expose the staging structure of a stored hash. -/
inductive Digest where
  | raw (s : List Char) : Digest
  | sha256hex (d : Digest) : Digest
  | bcryptHash (d : Digest) (salt : List Char) : Digest

/-- Models `generate_api_key`: the key is the fixed marker followed by the
random hex token from `secrets.token_hex(16)`. -/
def generate_api_key (tokenHex : List Char) : List Char :=
  "test-key-".data ++ tokenHex

/-- Models `hash_api_key`: SHA-256 of the raw key first, then bcrypt of
that digest's hex encoding (with the generated salt). -/
def hash_api_key (key salt : List Char) : Digest :=
  Digest.bcryptHash (Digest.sha256hex (Digest.raw key)) salt

/-- The row upserted into `neuronip.api_keys` (keyed by the prefix). -/
structure ApiKeyRecord where
  key_hash : Digest
  key_pfx : List Char
  name : List Char
  rate_limit : Nat

/-- Models `main` of the provisioning script: generate the key, take its
first 8 characters as the lookup slice, hash in two stages, and build
the stored row. Returns the key and the row. -/
def createTestApiKey (tokenHex salt : List Char) : List Char × ApiKeyRecord :=
  let key := generate_api_key tokenHex
  (key, ⟨hash_api_key key salt, key.take 8, "Development Test Key".data, 10000⟩)

/-! ## Codec lemmas: the decoder inverts the encoder -/

theorem digitChar_isDig (d : Nat) (h : d < 10) : isDig (digitChar d) = true := by
  interval_cases d <;> decide

theorem digitChar_toNat (d : Nat) (h : d < 10) : (digitChar d).toNat - 48 = d := by
  interval_cases d <;> decide

theorem natDigitsAux_zero (acc : List Char) : natDigitsAux 0 acc = acc := by
  rw [natDigitsAux]
  simp

theorem natDigitsAux_succ (n : Nat) (acc : List Char) (h : n ≠ 0) :
    natDigitsAux n acc = natDigitsAux (n / 10) (digitChar (n % 10) :: acc) := by
  rw [natDigitsAux]
  simp [h]

theorem natDigitsAux_acc (n : Nat) :
    ∀ acc, natDigitsAux n acc = natDigitsAux n [] ++ acc := by
  induction n using Nat.strong_induction_on with
  | _ n ih =>
    intro acc
    by_cases h : n = 0
    · subst h
      rw [natDigitsAux_zero, natDigitsAux_zero]
      simp
    · have hlt : n / 10 < n := Nat.div_lt_self (Nat.pos_of_ne_zero h) (by decide)
      rw [natDigitsAux_succ n acc h, natDigitsAux_succ n [] h,
        ih (n / 10) hlt (digitChar (n % 10) :: acc), ih (n / 10) hlt [digitChar (n % 10)]]
      simp

theorem natDigitsAux_digits (n : Nat) :
    ∀ acc, (∀ c ∈ acc, isDig c = true) → ∀ c ∈ natDigitsAux n acc, isDig c = true := by
  induction n using Nat.strong_induction_on with
  | _ n ih =>
    intro acc hacc c hc
    by_cases h : n = 0
    · subst h; rw [natDigitsAux_zero] at hc; exact hacc c hc
    · have hlt : n / 10 < n := Nat.div_lt_self (Nat.pos_of_ne_zero h) (by decide)
      rw [natDigitsAux_succ n acc h] at hc
      refine ih (n / 10) hlt _ ?_ c hc
      intro c' hc'
      rcases List.mem_cons.mp hc' with h1 | h1
      · subst h1; exact digitChar_isDig _ (Nat.mod_lt _ (by decide))
      · exact hacc c' h1

theorem natDigits_digits (n : Nat) : ∀ c ∈ natDigits n, isDig c = true := by
  intro c hc
  by_cases h : n = 0
  · subst h; simp [natDigits] at hc; subst hc; decide
  · simp [natDigits, h] at hc
    exact natDigitsAux_digits n [] (by intro c hc; simp at hc) c hc

theorem natDigits_ne_nil (n : Nat) : natDigits n ≠ [] := by
  by_cases h : n = 0
  · subst h; simp [natDigits]
  · simp only [natDigits, if_neg h]
    rw [natDigitsAux_succ n [] h, natDigitsAux_acc]
    simp

theorem foldl_natDigitsAux (n : Nat) :
    ∀ a, List.foldl (fun a c => a * 10 + (c.toNat - 48)) a (natDigitsAux n []) =
      a * 10 ^ (natDigitsAux n []).length + n := by
  induction n using Nat.strong_induction_on with
  | _ n ih =>
    intro a
    by_cases h : n = 0
    · subst h; rw [natDigitsAux_zero]; simp
    · have hlt : n / 10 < n := Nat.div_lt_self (Nat.pos_of_ne_zero h) (by decide)
      rw [natDigitsAux_succ n [] h, natDigitsAux_acc, List.foldl_append, ih (n / 10) hlt a]
      have hdig : (digitChar (n % 10)).toNat - 48 = n % 10 :=
        digitChar_toNat _ (Nat.mod_lt _ (by decide))
      simp only [List.foldl_cons, List.foldl_nil, List.length_append,
        List.length_cons, List.length_nil, hdig]
      rw [pow_succ, ← mul_assoc]
      generalize a * 10 ^ (natDigitsAux (n / 10) []).length = B
      omega

theorem digitsToNat_natDigits (n : Nat) : digitsToNat (natDigits n) = n := by
  by_cases h : n = 0
  · subst h; decide
  · simp only [natDigits, h, if_neg, not_false_iff, digitsToNat]
    rw [foldl_natDigitsAux n 0]
    simp

theorem spanDigits_append (xs rest : List Char) (hxs : ∀ c ∈ xs, isDig c = true)
    (hrest : noDigitHead rest = true) : spanDigits (xs ++ rest) = (xs, rest) := by
  induction xs with
  | nil =>
    cases rest with
    | nil => simp [spanDigits]
    | cons c r =>
      have : isDig c = false := by
        simpa [noDigitHead] using hrest
      simp [spanDigits, this]
  | cons c cs ih =>
    have hc : isDig c = true := hxs c (List.mem_cons_self c cs)
    have ih' := ih (fun c hc => hxs c (List.mem_cons_of_mem _ hc))
    simp [spanDigits, hc, ih']

theorem parseStrAux_encStrBody (s : List Char) :
    ∀ rest, parseStrAux (encStrBody s ++ '\x22' :: rest) = some (s, rest) := by
  induction s with
  | nil => intro rest; simp [encStrBody, parseStrAux, parseStrAuxF]
  | cons c cs ih =>
    intro rest
    by_cases h : c = '\x22' ∨ c = '\\'
    · have hc : (if c = '\x22' ∨ c = '\\' then ['\\', c] else [c]) = ['\\', c] := if_pos h
      simp only [encStrBody, hc, List.cons_append, List.append_assoc]
      simp only [parseStrAux, parseStrAuxF] at ih ⊢
      simp [h, ih]
    · push_neg at h
      obtain ⟨h1, h2⟩ := h
      have hcneg : ¬(c = '\x22' ∨ c = '\\') := by
        intro hcc
        rcases hcc with hcc | hcc
        · exact h1 hcc
        · exact h2 hcc
      simp only [encStrBody, if_neg hcneg, List.cons_append, List.singleton_append]
      simp only [parseStrAux, parseStrAuxF] at ih ⊢
      simp [h1, h2, ih]

theorem encode_ne_nil (j : Json) : encode j ≠ [] := by
  cases j with
  | null => simp [encode]
  | bool b => cases b <;> simp [encode]
  | num n =>
    cases n with
    | ofNat m => simpa [encode, intChars] using natDigits_ne_nil m
    | negSucc m => simp [encode, intChars]
  | str s => simp [encode]
  | arr l => cases l <;> simp [encode]
  | obj l => cases l <;> simp [encode]

theorem encode_head_not_close (j : Json) (t : List Char) :
    (encode j ++ t).head? ≠ some ']' ∧ (encode j ++ t).head? ≠ some '\x7d' := by
  cases j with
  | null => simp [encode]
  | bool b => cases b <;> simp [encode]
  | num n =>
    cases n with
    | ofNat m =>
      obtain ⟨d, ds, hds⟩ := List.exists_cons_of_ne_nil (natDigits_ne_nil m)
      have hd : isDig d = true := natDigits_digits m d (by rw [hds]; exact List.mem_cons_self d ds)
      have henc : encode (Json.num (Int.ofNat m)) = d :: ds := by
        simp [encode, intChars, hds]
      rw [henc]
      constructor <;> intro hcontra <;> simp at hcontra <;> rw [hcontra] at hd <;>
        exact absurd hd (by decide)
    | negSucc m => simp [encode, intChars]
  | str s => simp [encode]
  | arr l => cases l <;> simp [encode]
  | obj l =>
    cases l with
    | nil => simp [encode]
    | cons kv kvs =>
      obtain ⟨k, v⟩ := kv
      cases kvs <;> simp [encode, encodeFields]

theorem encodeItems_eq (v : Json) (vs : List Json) :
    ∃ t, encodeItems v vs = encode v ++ t := by
  cases vs with
  | nil => exact ⟨[], by simp [encodeItems]⟩
  | cons w ws => exact ⟨',' :: encodeItems w ws, by simp [encodeItems]⟩

theorem isDig_n : isDig 'n' = false := by decide

theorem isDig_t : isDig 't' = false := by decide

theorem isDig_f : isDig 'f' = false := by decide

theorem isDig_dash : isDig '-' = false := by decide

theorem isDig_quote : isDig '\x22' = false := by decide

theorem isDig_lbrack : isDig '[' = false := by decide

theorem isDig_lbrace : isDig '\x7b' = false := by decide

theorem parseP_encode :
    ∀ fuel : Nat,
    (∀ j rest, 2 * (encode j).length ≤ fuel → noDigitHead rest = true →
      parseP fuel PMode.val (encode j ++ rest) = some (PRes.v j, rest)) ∧
    (∀ v vs rest, 2 * (encodeItems v vs).length + 3 ≤ fuel →
      parseP fuel PMode.items (encodeItems v vs ++ ']' :: rest) =
        some (PRes.items (v :: vs), rest)) ∧
    (∀ kv kvs rest, 2 * (encodeFields kv kvs).length + 3 ≤ fuel →
      parseP fuel PMode.fields (encodeFields kv kvs ++ '\x7d' :: rest) =
        some (PRes.fields (kv :: kvs), rest)) := by
  intro fuel
  induction fuel with
  | zero =>
    refine ⟨?_, ?_, ?_⟩
    · intro j rest hf _
      have h2 : 0 < (encode j).length := List.length_pos.mpr (encode_ne_nil j)
      omega
    · intro v vs rest hf
      omega
    · intro kv kvs rest hf
      omega
  | succ f ih =>
    obtain ⟨ihv, ihi, ihfl⟩ := ih
    refine ⟨?_, ?_, ?_⟩
    · intro j rest hfuel hrest
      cases j with
      | null => simp [encode, parseP, isDig_n, isDig_t, isDig_f, isDig_dash, isDig_quote, isDig_lbrack, isDig_lbrace]
      | bool b => cases b <;> simp [encode, parseP, isDig_n, isDig_t, isDig_f, isDig_dash, isDig_quote, isDig_lbrack, isDig_lbrace]
      | num n =>
        cases n with
        | ofNat m =>
          obtain ⟨d, ds, hds⟩ := List.exists_cons_of_ne_nil (natDigits_ne_nil m)
          have hd : isDig d = true :=
            natDigits_digits m d (by rw [hds]; exact List.mem_cons_self d ds)
          have hspan : spanDigits (natDigits m ++ rest) = (natDigits m, rest) :=
            spanDigits_append _ _ (natDigits_digits m) hrest
          have hval : digitsToNat (natDigits m) = m := digitsToNat_natDigits m
          have henc : encode (Json.num (Int.ofNat m)) = natDigits m := by
            simp [encode, intChars]
          rw [henc, hds]
          rw [hds] at hspan hval
          simp only [List.cons_append] at hspan ⊢
          simp [parseP, hd, hspan, hval, isDig_n, isDig_t, isDig_f, isDig_dash, isDig_quote, isDig_lbrack, isDig_lbrace]
        | negSucc m =>
          obtain ⟨d, ds, hds⟩ := List.exists_cons_of_ne_nil (natDigits_ne_nil (m + 1))
          have hspan : spanDigits (natDigits (m + 1) ++ rest) = (natDigits (m + 1), rest) :=
            spanDigits_append _ _ (natDigits_digits (m + 1)) hrest
          have hval : digitsToNat (natDigits (m + 1)) = m + 1 := digitsToNat_natDigits (m + 1)
          have henc : encode (Json.num (Int.negSucc m)) = '-' :: natDigits (m + 1) := by
            simp [encode, intChars]
          rw [henc, hds]
          rw [hds] at hspan hval
          simp only [List.cons_append] at hspan ⊢
          simp [parseP, hspan, hval, isDig_n, isDig_t, isDig_f, isDig_dash, isDig_quote, isDig_lbrack, isDig_lbrace]
          simp only [Int.negSucc_eq]
          ring
      | str s =>
        simp only [encode, List.cons_append, List.append_assoc, List.singleton_append]
        simp [parseP, parseStrAux_encStrBody s rest, isDig_n, isDig_t, isDig_f, isDig_dash, isDig_quote, isDig_lbrack, isDig_lbrace]
      | arr l =>
        cases l with
        | nil => simp [encode, parseP, isDig_n, isDig_t, isDig_f, isDig_dash, isDig_quote, isDig_lbrack, isDig_lbrace]
        | cons v vs =>
          obtain ⟨t, ht⟩ := encodeItems_eq v vs
          have hhead : ¬ ((encodeItems v vs).head? = some ']') := by
            rw [ht]
            exact (encode_head_not_close v t).1
          have hne : ¬ (encodeItems v vs = []) := by
            rw [ht]
            simp [encode_ne_nil v]
          simp only [encode, List.length_cons, List.length_append,
            List.length_singleton] at hfuel
          have hrec : parseP f PMode.items (encodeItems v vs ++ ']' :: rest) =
              some (PRes.items (v :: vs), rest) := by
            apply ihi
            omega
          simp only [encode, List.cons_append, List.append_assoc, List.singleton_append]
          simp [parseP, hhead, hne, hrec, isDig_n, isDig_t, isDig_f, isDig_dash, isDig_quote, isDig_lbrack, isDig_lbrace]
      | obj l =>
        cases l with
        | nil => simp [encode, parseP, isDig_n, isDig_t, isDig_f, isDig_dash, isDig_quote, isDig_lbrack, isDig_lbrace]
        | cons kv kvs =>
          obtain ⟨k, v⟩ := kv
          have hhead : ¬ ((encodeFields (k, v) kvs).head? = some '\x7d') := by
            cases kvs <;> simp [encodeFields]
          have hne : ¬ (encodeFields (k, v) kvs = []) := by
            cases kvs <;> simp [encodeFields]
          simp only [encode, List.length_cons, List.length_append,
            List.length_singleton] at hfuel
          have hrec : parseP f PMode.fields (encodeFields (k, v) kvs ++ '\x7d' :: rest) =
              some (PRes.fields ((k, v) :: kvs), rest) := by
            apply ihfl
            omega
          simp only [encode, List.cons_append, List.append_assoc, List.singleton_append]
          simp [parseP, hhead, hne, hrec, isDig_n, isDig_t, isDig_f, isDig_dash, isDig_quote, isDig_lbrack, isDig_lbrace]
    · intro v vs rest hfuel
      cases vs with
      | nil =>
        simp only [encodeItems] at hfuel ⊢
        have hv : parseP f PMode.val (encode v ++ ']' :: rest) =
            some (PRes.v v, ']' :: rest) := by
          apply ihv
          · omega
          · rfl
        simp [parseP, hv, isDig_n, isDig_t, isDig_f, isDig_dash, isDig_quote, isDig_lbrack, isDig_lbrace]
      | cons w ws =>
        simp only [encodeItems, List.length_append, List.length_cons] at hfuel
        have hv : parseP f PMode.val (encode v ++ ',' :: (encodeItems w ws ++ ']' :: rest)) =
            some (PRes.v v, ',' :: (encodeItems w ws ++ ']' :: rest)) := by
          apply ihv
          · omega
          · rfl
        have hi : parseP f PMode.items (encodeItems w ws ++ ']' :: rest) =
            some (PRes.items (w :: ws), rest) := by
          apply ihi
          omega
        simp only [encodeItems, List.cons_append, List.append_assoc]
        simp [parseP, hv, hi, isDig_n, isDig_t, isDig_f, isDig_dash, isDig_quote, isDig_lbrack, isDig_lbrace]
    · intro kv kvs rest hfuel
      obtain ⟨k, v⟩ := kv
      cases kvs with
      | nil =>
        simp only [encodeFields, List.length_cons, List.length_append] at hfuel
        have hv : parseP f PMode.val (encode v ++ '\x7d' :: rest) =
            some (PRes.v v, '\x7d' :: rest) := by
          apply ihv
          · omega
          · rfl
        have hstr := parseStrAux_encStrBody k (':' :: (encode v ++ '\x7d' :: rest))
        simp only [encodeFields, List.cons_append, List.append_assoc]
        simp [parseP, hstr, hv, isDig_n, isDig_t, isDig_f, isDig_dash, isDig_quote, isDig_lbrack, isDig_lbrace]
      | cons kv2 kvs2 =>
        simp only [encodeFields, List.length_cons, List.length_append] at hfuel
        have hv : parseP f PMode.val
            (encode v ++ ',' :: (encodeFields kv2 kvs2 ++ '\x7d' :: rest)) =
            some (PRes.v v, ',' :: (encodeFields kv2 kvs2 ++ '\x7d' :: rest)) := by
          apply ihv
          · omega
          · rfl
        have hfr : parseP f PMode.fields (encodeFields kv2 kvs2 ++ '\x7d' :: rest) =
            some (PRes.fields (kv2 :: kvs2), rest) := by
          apply ihfl
          omega
        have hstr := parseStrAux_encStrBody k
          (':' :: (encode v ++ ',' :: (encodeFields kv2 kvs2 ++ '\x7d' :: rest)))
        simp only [encodeFields, List.cons_append, List.append_assoc]
        simp [parseP, hstr, hv, hfr, isDig_n, isDig_t, isDig_f, isDig_dash, isDig_quote, isDig_lbrack, isDig_lbrace]

theorem decode_encode (j : Json) : decode (encode j) = some j := by
  have h := (parseP_encode (2 * (encode j).length + 1)).1 j [] (by omega) rfl
  rw [List.append_nil] at h
  simp [decode, h]

/-! ## Dict, URL and header lemmas -/

theorem dictUpdate_nil {α β : Type} [DecidableEq α] (d : List (α × β)) :
    dictUpdate d [] = d := rfl

theorem dictUpdate_cons {α β : Type} [DecidableEq α] (d : List (α × β)) (kv : α × β)
    (rest : List (α × β)) :
    dictUpdate d (kv :: rest) = dictUpdate (dictInsert d kv.1 kv.2) rest := by
  simp [dictUpdate]

theorem dictGet_dictInsert_self {α β : Type} [DecidableEq α] (d : List (α × β))
    (k : α) (v : β) : dictGet (dictInsert d k v) k = some v := by
  induction d with
  | nil => simp [dictInsert, dictGet]
  | cons kv rest ih =>
    obtain ⟨a, b⟩ := kv
    by_cases h : a = k
    · subst h; simp [dictInsert, dictGet]
    · simp [dictInsert, dictGet, h, ih]

theorem dictGet_dictInsert_ne {α β : Type} [DecidableEq α] (d : List (α × β))
    (k' k : α) (v : β) (h : k' ≠ k) :
    dictGet (dictInsert d k' v) k = dictGet d k := by
  induction d with
  | nil => simp [dictInsert, dictGet, h]
  | cons kv rest ih =>
    obtain ⟨a, b⟩ := kv
    by_cases ha : a = k'
    · subst ha
      simp [dictInsert, dictGet, h]
    · simp only [dictInsert, if_neg ha]
      by_cases hak : a = k
      · simp [dictGet, hak]
      · simp [dictGet, hak, ih]

theorem dictGet_dictUpdate_not_mem {α β : Type} [DecidableEq α] (e : List (α × β))
    (k : α) : k ∉ e.map Prod.fst →
      ∀ d, dictGet (dictUpdate d e) k = dictGet d k := by
  induction e with
  | nil => intro _ d; simp [dictUpdate]
  | cons kv rest ih =>
    intro h d
    obtain ⟨a, b⟩ := kv
    simp only [List.map_cons, List.mem_cons, not_or] at h
    rw [dictUpdate_cons, ih h.2]
    exact dictGet_dictInsert_ne d a k b (fun ha => h.1 ha.symm)

theorem dictGet_dictUpdate_mem {α β : Type} [DecidableEq α] (e : List (α × β))
    (k : α) (v : β) : (e.map Prod.fst).Nodup → dictGet e k = some v →
      ∀ d, dictGet (dictUpdate d e) k = some v := by
  induction e with
  | nil => intro _ hv; simp [dictGet] at hv
  | cons kv rest ih =>
    intro hnd hv d
    obtain ⟨a, b⟩ := kv
    rw [dictUpdate_cons]
    simp only [List.map_cons, List.nodup_cons] at hnd
    by_cases hak : a = k
    · subst hak
      simp [dictGet] at hv
      subst hv
      rw [dictGet_dictUpdate_not_mem rest a hnd.1]
      exact dictGet_dictInsert_self d a b
    · have hv' : dictGet rest k = some v := by
        simpa [dictGet, hak] using hv
      exact ih hnd.2 hv' (dictInsert d a b)

theorem head_dropWhile_false (p : Char → Bool) (l : List Char) :
    ∀ c, (l.dropWhile p).head? = some c → p c = false := by
  induction l with
  | nil => intro c h; simp [List.dropWhile] at h
  | cons a as ih =>
    intro c h
    by_cases hpa : p a = true
    · rw [List.dropWhile_cons_of_pos hpa] at h
      exact ih c h
    · rw [List.dropWhile_cons_of_neg hpa] at h
      simp only [List.head?_cons, Option.some.injEq] at h
      subst h
      simpa using hpa

theorem dropWhile_replicate_append (p : Char → Bool) (a : Char) (hp : p a = true)
    (l : List Char) : ∀ k, List.dropWhile p (List.replicate k a ++ l) =
      List.dropWhile p l := by
  intro k
  induction k with
  | zero => simp
  | succ m ih =>
    rw [List.replicate_succ, List.cons_append, List.dropWhile_cons_of_pos hp]
    exact ih

theorem rstripSlashes_append_replicate (b : List Char) (k : Nat) :
    rstripSlashes (b ++ List.replicate k '/') = rstripSlashes b := by
  unfold rstripSlashes
  rw [List.reverse_append, List.reverse_replicate,
    dropWhile_replicate_append _ '/' (by decide) _ k]

theorem rstripSlashes_getLast_ne (b : List Char) :
    (rstripSlashes b).getLast? ≠ some '/' := by
  unfold rstripSlashes
  rw [List.getLast?_reverse]
  intro h
  have hf := head_dropWhile_false _ _ '/' h
  simp at hf

/-! ## Sample values used by witnesses -/

/-- A sample base URL (from the repository's usage example). -/
def sampleBase : List Char := "http://localhost:8082/api/v1".data

/-- A sample non-empty API key. -/
def sampleKey : List Char := "your-api-key-here".data

/-- A client configured with the sample key. -/
def cfgWithKey : ClientConfig := ⟨sampleBase, some sampleKey⟩

/-- A client configured with an empty-string key. -/
def cfgEmptyKey : ClientConfig := ⟨sampleBase, some []⟩

/-- A sample warehouse query string (from the spec's scenario). -/
def sampleQuery : List Char := "Show me total sales by region".data

/-! ## Claim theorems -/

/-- C1 counterexample: the claim quantifies over every status `≥ 400`,
but `raise_for_status` only raises for `400 ≤ s < 600`; at status 600
with a decodable body, `_request` returns a value instead of failing. -/
theorem request_status600_returns :
    requestDispatch (⟨600, ['\x7b', '\x7d']⟩ :: []) = (Except.ok (Json.obj []), []) := rfl

/-- C1 (amended to status in `[400, 600)`): for a response with a 4xx/5xx
status, `_request` fails with an HTTP-status error carrying the original
status and raw body, consumes exactly the one dispatched response (the
rest of the stream is untouched — no retry), and returns no value. -/
theorem request_http_error (r : HttpResponse) (rest : List HttpResponse)
    (h1 : 400 ≤ r.status) (h2 : r.status < 600) :
    requestDispatch (r :: rest) =
      (Except.error (ApiError.httpStatusError r.status r.body), rest) := by
  simp [requestDispatch, handleResponse, h1, h2]

/-- Witness for C1 at a concrete 500 response. -/
theorem request_http_error_witness :
    400 ≤ (500 : Nat) ∧ (500 : Nat) < 600 ∧
    requestDispatch (⟨500, "internal".data⟩ :: []) =
      (Except.error (ApiError.httpStatusError 500 ( "internal".data)), []) :=
  ⟨by decide, by decide, request_http_error ⟨500, "internal".data⟩ [] (by decide) (by decide)⟩

/-- C2 counterexample: a client constructed with a credential — the empty
string — sends no Authorization header, because `__init__` tests the key
for truthiness rather than presence. -/
theorem request_auth_empty_credential :
    cfgEmptyKey.api_key = some [] ∧
    dictGet (runOp cfgEmptyKey ApiOp.health_check).headers authorizationKey = none :=
  ⟨rfl, rfl⟩

/-- C2 (amended to non-empty credentials): every request of a client
holding a non-empty credential carries exactly one Authorization header
with value `Bearer <credential>` plus a `Content-Type: application/json`
header; with no credential, no Authorization header is present. No
operation overrides the session headers per request. -/
theorem request_auth_headers (cfg : ClientConfig) (op : ApiOp) (k : List Char) :
    (runOp cfg op).headers = sessionHeaders cfg.api_key
    ∧ (cfg.api_key = some k → k ≠ [] →
        ((runOp cfg op).headers.filter (fun kv => decide (kv.1 = authorizationKey))).length = 1
        ∧ dictGet (runOp cfg op).headers authorizationKey = some (bearerValue k)
        ∧ dictGet (runOp cfg op).headers contentTypeKey = some appJsonValue)
    ∧ (cfg.api_key = none →
        dictGet (runOp cfg op).headers authorizationKey = none) := by
  have hh : (runOp cfg op).headers = sessionHeaders cfg.api_key := by
    cases op <;> rfl
  refine ⟨hh, ?_, ?_⟩
  · intro h1 h2
    rw [hh, h1]
    cases k with
    | nil => exact absurd rfl h2
    | cons c cs =>
      have hne : ¬ (contentTypeKey = authorizationKey) := by decide
      refine ⟨?_, ?_, ?_⟩
      · simp [sessionHeaders, List.filter, hne]
      · simp [sessionHeaders, dictGet]
      · have hne' : ¬ (authorizationKey = contentTypeKey) := by decide
        simp [sessionHeaders, dictGet, hne']
  · intro h1
    rw [hh, h1]
    rfl

/-- Witness for C2 at a concrete configuration and operation. -/
theorem request_auth_headers_witness :
    cfgWithKey.api_key = some sampleKey ∧ sampleKey ≠ []
    ∧ ((runOp cfgWithKey ApiOp.health_check).headers.filter
        (fun kv => decide (kv.1 = authorizationKey))).length = 1
    ∧ dictGet (runOp cfgWithKey ApiOp.health_check).headers authorizationKey =
        some (bearerValue sampleKey)
    ∧ dictGet (runOp cfgWithKey ApiOp.health_check).headers contentTypeKey =
        some appJsonValue := by
  have h := (request_auth_headers cfgWithKey ApiOp.health_check sampleKey).2.1 rfl (by decide)
  exact ⟨rfl, by decide, h.1, h.2.1, h.2.2⟩

/-- C3: the target URL is invariant under trailing slashes of `base_url`,
and the join of the normalized base with a `/`-leading path has exactly
one slash: the normalized base never ends in `/`, the path starts with
it. -/
theorem request_url_normalized (b p : List Char) (k : Nat) (hp : p.head? = some '/') :
    requestUrl ⟨b ++ List.replicate k '/', none⟩ p = requestUrl ⟨b, none⟩ p
    ∧ requestUrl ⟨b, none⟩ p = rstripSlashes b ++ p
    ∧ (rstripSlashes b).getLast? ≠ some '/'
    ∧ p.head? = some '/' := by
  refine ⟨?_, rfl, rstripSlashes_getLast_ne b, hp⟩
  simp [requestUrl, rstripSlashes_append_replicate]

/-- Witness for C3 with two extra trailing slashes on the sample base. -/
theorem request_url_normalized_witness :
    (( "/health".data).head? = some '/')
    ∧ requestUrl ⟨sampleBase ++ List.replicate 2 '/', none⟩ ( "/health".data) =
        requestUrl ⟨sampleBase, none⟩ ( "/health".data)
    ∧ (rstripSlashes sampleBase).getLast? ≠ some '/' := by
  have h := request_url_normalized sampleBase ( "/health".data) 2 (by decide)
  exact ⟨by decide, h.1, h.2.2.1⟩

/-- C4: for a 2xx response whose body decodes as JSON, `_request` returns
exactly the decoded value (consuming one response), and the codec
round-trips: decoding an encoded value yields it back unchanged. -/
theorem request_success_decoded (s : Nat) (body : List Char) (j : Json)
    (rest : List HttpResponse) (h1 : 200 ≤ s) (h2 : s ≤ 299) (hd : decode body = some j) :
    requestDispatch (⟨s, body⟩ :: rest) = (Except.ok j, rest)
    ∧ decode (encode j) = some j := by
  constructor
  · have hs : ¬ (400 ≤ s ∧ s < 600) := by omega
    simp [requestDispatch, handleResponse, hs, hd]
  · exact decode_encode j

/-- Witness for C4 at a concrete 200 response with body `{}`. -/
theorem request_success_decoded_witness :
    200 ≤ (200 : Nat) ∧ (200 : Nat) ≤ 299 ∧ decode ['\x7b', '\x7d'] = some (Json.obj [])
    ∧ requestDispatch (⟨200, ['\x7b', '\x7d']⟩ :: []) = (Except.ok (Json.obj []), []) := by
  have h := request_success_decoded 200 ['\x7b', '\x7d'] (Json.obj []) [] (by decide)
    (by decide) rfl
  exact ⟨by decide, by decide, rfl, h.1⟩

/-- C5: for a success-status response whose body is not valid JSON,
`_request` fails with the decode error, an error distinct by construction
from the HTTP-status and transport errors. -/
theorem request_decode_error (s : Nat) (body : List Char) (rest : List HttpResponse)
    (st : Nat) (b2 : List Char) (h1 : 200 ≤ s) (h2 : s ≤ 299) (hd : decode body = none) :
    requestDispatch (⟨s, body⟩ :: rest) = (Except.error (ApiError.decodeError body), rest)
    ∧ ApiError.decodeError body ≠ ApiError.httpStatusError st b2
    ∧ ApiError.decodeError body ≠ ApiError.transportError := by
  refine ⟨?_, by simp, by simp⟩
  have hs : ¬ (400 ≤ s ∧ s < 600) := by omega
  simp [requestDispatch, handleResponse, hs, hd]

/-- Witness for C5 at status 200 with the spec's body `not json`. -/
theorem request_decode_error_witness :
    200 ≤ (200 : Nat) ∧ (200 : Nat) ≤ 299 ∧ decode ( "not json".data) = none
    ∧ requestDispatch (⟨200, "not json".data⟩ :: []) =
        (Except.error (ApiError.decodeError ( "not json".data)), [])
    ∧ ApiError.decodeError ( "not json".data) ≠ ApiError.httpStatusError 500 []
    ∧ ApiError.decodeError ( "not json".data) ≠ ApiError.transportError := by
  have h := request_decode_error 200 ( "not json".data) [] 500 [] (by decide) (by decide) rfl
  exact ⟨by decide, by decide, rfl, h.1, h.2.1, h.2.2⟩

/-- C6 counterexample: `schema_id` provided as the empty string is not
included in the body — `warehouse_query` tests truthiness, not
presence. -/
theorem warehouse_query_empty_schema :
    bodyLookup (warehouse_query cfgWithKey sampleQuery (some [])) schemaIdKey = none := rfl

/-- C6 (amended to non-empty `schema_id`): with no `schema_id` the body is
exactly the one-key mapping with the query; a non-empty `schema_id` is
added as a second key. -/
theorem warehouse_query_payload (cfg : ClientConfig) (q s : List Char) (hs : s ≠ []) :
    (warehouse_query cfg q none).body = some (Json.obj [(queryKey, Json.str q)])
    ∧ (warehouse_query cfg q (some s)).body =
        some (Json.obj [(queryKey, Json.str q), (schemaIdKey, Json.str s)]) := by
  constructor
  · rfl
  · cases s with
    | nil => exact absurd rfl hs
    | cons c cs =>
      have hqs : ¬ (queryKey = schemaIdKey) := by decide
      simp [warehouse_query, mkRequest, dictInsert, hqs]

/-- Witness for C6 at the spec's sample query. -/
theorem warehouse_query_payload_witness :
    ( "sch-1".data ≠ ([] : List Char))
    ∧ (warehouse_query cfgWithKey sampleQuery none).body =
        some (Json.obj [(queryKey, Json.str sampleQuery)])
    ∧ (warehouse_query cfgWithKey sampleQuery (some ( "sch-1".data))).body =
        some (Json.obj [(queryKey, Json.str sampleQuery),
          (schemaIdKey, Json.str ( "sch-1".data))]) := by
  have h := warehouse_query_payload cfgWithKey sampleQuery ( "sch-1".data) (by decide)
  exact ⟨by decide, h.1, h.2⟩

/-- C7 counterexample: `data_source_id` provided as the empty string is
not added to the query parameters — `list_ingestion_jobs` tests
truthiness, not presence. -/
theorem list_jobs_empty_dsid :
    dictGet (list_ingestion_jobs cfgWithKey (some []) 10).params dataSourceIdKey = none := rfl

/-- C7 (amended to non-empty `data_source_id`): with no `data_source_id`
the query parameters are exactly the one-key mapping with the limit, the
omitted limit defaults to 100, and a non-empty `data_source_id` is added
as a parameter alongside the limit. -/
theorem list_jobs_params (cfg : ClientConfig) (n : Int) (s : List Char) (hs : s ≠ []) :
    (list_ingestion_jobs cfg none n).params = [(limitKey, Json.num n)]
    ∧ (list_ingestion_jobs_default cfg none).params = [(limitKey, Json.num 100)]
    ∧ dictGet (list_ingestion_jobs cfg (some s) n).params dataSourceIdKey =
        some (Json.str s)
    ∧ dictGet (list_ingestion_jobs cfg (some s) n).params limitKey = some (Json.num n) := by
  have hld : ¬ (limitKey = dataSourceIdKey) := by decide
  refine ⟨rfl, rfl, ?_, ?_⟩ <;>
    (cases s with
    | nil => exact absurd rfl hs
    | cons c cs => simp [list_ingestion_jobs, mkRequest, dictInsert, dictGet, hld])

/-- Witness for C7 at the spec's scenario `limit=10`. -/
theorem list_jobs_params_witness :
    ( "ds-1".data ≠ ([] : List Char))
    ∧ (list_ingestion_jobs cfgWithKey none 10).params = [(limitKey, Json.num 10)]
    ∧ (list_ingestion_jobs_default cfgWithKey none).params = [(limitKey, Json.num 100)]
    ∧ dictGet (list_ingestion_jobs cfgWithKey (some ( "ds-1".data)) 10).params
        dataSourceIdKey = some (Json.str ( "ds-1".data)) := by
  have h := list_jobs_params cfgWithKey 10 ( "ds-1".data) (by decide)
  exact ⟨by decide, h.1, h.2.1, h.2.2.1⟩

/-- C8: a truthy `filters` mapping is merged with `params.update(filters)`
after the explicit `limit` entry, so a `limit` key inside `filters`
silently overwrites the `limit` argument in the outgoing parameters. -/
theorem audit_logs_filter_overwrites (cfg : ClientConfig)
    (fs : List (List Char × Json)) (n : Int) (v : Json) (hne : fs ≠ [])
    (hnd : (fs.map Prod.fst).Nodup) (hv : dictGet fs limitKey = some v) :
    (get_audit_logs cfg (some fs) n).params = dictUpdate [(limitKey, Json.num n)] fs
    ∧ dictGet (get_audit_logs cfg (some fs) n).params limitKey = some v := by
  cases fs with
  | nil => exact absurd rfl hne
  | cons kv kvs =>
    exact ⟨rfl, dictGet_dictUpdate_mem (kv :: kvs) limitKey v hnd hv
      [(limitKey, Json.num n)]⟩

/-- Witness for C8: a filters mapping carrying `limit := 5` overrides the
explicit limit 100. -/
theorem audit_logs_filter_overwrites_witness :
    ([(limitKey, Json.num 5)] ≠ ([] : List (List Char × Json)))
    ∧ (([(limitKey, Json.num 5)].map Prod.fst).Nodup)
    ∧ dictGet [(limitKey, Json.num 5)] limitKey = some (Json.num 5)
    ∧ dictGet (get_audit_logs cfgWithKey (some [(limitKey, Json.num 5)]) 100).params
        limitKey = some (Json.num 5) := by
  have h := audit_logs_filter_overwrites cfgWithKey [(limitKey, Json.num 5)] 100
    (Json.num 5) (List.cons_ne_nil _ _) (by simp) rfl
  exact ⟨List.cons_ne_nil _ _, by simp, rfl, h.2⟩

/-- C9: the stored lookup slice is exactly the first 8 characters of the
generated key, and the stored digest is the two-stage
`bcrypt(sha256-hex(raw key))` — never a single-stage hash of the raw
key. -/
theorem api_key_two_stage (tokenHex salt : List Char) :
    (createTestApiKey tokenHex salt).2.key_pfx = (createTestApiKey tokenHex salt).1.take 8
    ∧ (createTestApiKey tokenHex salt).2.key_hash =
        Digest.bcryptHash (Digest.sha256hex (Digest.raw (createTestApiKey tokenHex salt).1))
          salt
    ∧ (∀ d : Digest, (createTestApiKey tokenHex salt).2.key_hash ≠ Digest.sha256hex d)
    ∧ (∀ s2 salt2 : List Char, (createTestApiKey tokenHex salt).2.key_hash ≠
        Digest.bcryptHash (Digest.raw s2) salt2) := by
  refine ⟨rfl, rfl, ?_, ?_⟩
  · intro d h
    simp [createTestApiKey, hash_api_key] at h
  · intro s2 salt2 h
    simp [createTestApiKey, hash_api_key] at h

/-- C10 (implicit truthiness): each falsy optional argument — empty
`schema_id`, empty `data_source_id`, empty `filters` — produces a request
identical to the one sent with the argument absent. -/
theorem falsy_optionals_match_absent (cfg : ClientConfig) (q : List Char) (n : Int) :
    warehouse_query cfg q (some []) = warehouse_query cfg q none
    ∧ list_ingestion_jobs cfg (some []) n = list_ingestion_jobs cfg none n
    ∧ get_audit_logs cfg (some []) n = get_audit_logs cfg none n :=
  ⟨rfl, rfl, rfl⟩
